import Mathlib

/-!
# DynamicVector

A shallow embedding of the templated `DynamicVector<T>` of `dynamicvector.h` and
`dynamicvector.cpp`, with theorems about its member functions.

Modelling decisions.

* The object is the triple of its private members `curr_size`, `capacity`, `arr`.
* A `T*` is either `nullptr` or the array it points at, given as the list of that
  array's slots. A slot is `none` until something has been written to it, which is
  how the slots of a fresh `new T[n]` start. Every array access is bounds checked:
  an access the C++ standard leaves undefined (null or out of the array) makes the
  member function end in `Outcome.undefined`.
* The element type is one of the two instantiations at the end of the source file,
  `int` and `string`, or any other type declared an `Element`. `memcpy` copies the
  bytes of objects: for a type that is not trivially copyable, `string` among them,
  a `memcpy` of one object or more is undefined, and the member function ends in
  `Outcome.undefined`. The arrays of the model therefore hold live objects only,
  and the element assignments `arr[i] = arr[j]`, `arr[i] = value` are assignments
  of the element type.
* `push` and `insert` take `const T& value`. The reference is a `Ref`: it refers to
  an object outside the array of the vector, or to slot `i` of the array that `arr`
  points at when the call starts. It is read where the source reads it: in the
  array as the loop left it, or, in the reallocating branch of `push`, after
  `delete [] arr`, where reading a slot of that array is undefined.
* The identity of an array is not part of the model: whether two vectors share
  storage cannot be said in it, and no theorem says anything about that.
* `new T[n]` is the one place where the environment is consulted. Each member
  function calls it at most once, so each takes a flag `heap` telling whether that
  call obtains storage; with `heap = false` the call yields `nullptr`, the case the
  source tests for straight after each `new`.
* `throw string(...)` ends the member function in `Outcome.thrown`, which records
  the members as the exception leaves them.
* `size_t` and `unsigned` values are natural numbers. The sums and products of the
  source (`curr_size++`, `capacity * 2`, `erase_index + 1`) are taken in the
  naturals: they stay far below the word size for every array that fits in memory
  and is indexable by `unsigned`. The one subtraction that leaves the naturals on
  such states, `curr_size - 1` in `operator[]` at `curr_size == 0`, is taken modulo
  `2 ^ 64` as `size_t` arithmetic prescribes.
* `delete [] arr` destroys the objects of the array and frees it. It does not change
  the three members, and on an array of live objects it is defined; its one effect
  in the model is that references into the freed array can no longer be read.
-/

/-- A `T*`: `nullptr`, or a pointer to the first slot of an array given by its slots. -/
inductive Ptr (T : Type) where
  | nullptr : Ptr T
  | block (a : List (Option T)) : Ptr T
deriving DecidableEq, Repr

/-- The private members of `DynamicVector<T>`. -/
structure DynamicVector (T : Type) where
  curr_size : Nat
  capacity : Nat
  arr : Ptr T
deriving DecidableEq, Repr

/-- The two strings the source throws: `"Error: DynamicVector memory allocation failure."`
and `"Error: Array out of bounds."`. -/
inductive Thrown where
  | alloc_failure : Thrown
  | out_of_bounds : Thrown
deriving DecidableEq, Repr

/-- How a call of a manipulator ends: it returns, it throws (the members are as the
exception leaves them), or it runs into undefined behaviour. -/
inductive Outcome (T : Type) where
  | done (s : DynamicVector T) : Outcome T
  | thrown (e : Thrown) (s : DynamicVector T) : Outcome T
  | undefined : Outcome T
deriving DecidableEq, Repr

/-- How a call of `operator[]` ends: with a reference to a slot (given by the slot's
content), with an exception, or in undefined behaviour. -/
inductive Access (T : Type) where
  | ref (x : Option T) : Access T
  | thrown (e : Thrown) : Access T
  | undefined : Access T
deriving DecidableEq, Repr

/-- An element type of the vector, with whether its objects may be copied byte by byte (the
type is trivially copyable). -/
class Element (T : Type) where
  bytewise : Bool

/-- The instantiation `template class DynamicVector<int>`. -/
instance : Element Int where
  bytewise := true

/-- The instantiation `template class DynamicVector<string>`: a `std::string` owns a
character buffer and is not trivially copyable. -/
instance : Element String where
  bytewise := false

/-- Whether `memcpy` may copy objects of the element type `T`. -/
def trivially_copyable (T : Type) [e : Element T] : Bool := e.bytewise

/-- A `const T&` argument of a call on a vector: a reference to an object outside the
array of the vector, or to slot `i` of the array `arr` points at when the call starts. -/
inductive Ref (T : Type) where
  | outside (v : T) : Ref T
  | element (i : Nat) : Ref T
deriving DecidableEq, Repr

namespace Ptr

variable {T : Type}

/-- Number of slots of the array behind a pointer (`0` for `nullptr`). -/
def slots : Ptr T → Nat
  | nullptr => 0
  | block a => a.length

/-- Reading `p[i]`; `none` when the access is undefined. -/
def load (p : Ptr T) (i : Nat) : Option (Option T) :=
  match p with
  | nullptr => none
  | block a => a[i]?

/-- The assignment `p[i] = x`; `none` when the access is undefined. -/
def store (p : Ptr T) (i : Nat) (x : Option T) : Option (Ptr T) :=
  match p with
  | nullptr => none
  | block a => if i < a.length then some (block (a.set i x)) else none

/-- The assignment `p[i] = p[j]`. -/
def move (p : Ptr T) (i j : Nat) : Option (Ptr T) :=
  match load p j with
  | none => none
  | some x => store p i x

/-- Copying the content of `n` slots of `src` from `s` on over the slots of `dst` from `d`
on; `none` when a pointer is null or a range leaves its array. -/
def copy_slots (dst : Ptr T) (d : Nat) (src : Ptr T) (s n : Nat) : Option (Ptr T) :=
  match dst, src with
  | block a, block b =>
    if d + n ≤ a.length ∧ s + n ≤ b.length then
      some (block (a.take d ++ (b.drop s).take n ++ a.drop (d + n)))
    else none
  | _, _ => none

/-- The call `memcpy(&dst[d], &src[s], n * sizeof(T))`, with `bytewise` telling whether the
element type is trivially copyable: copying the bytes of one object or more of a type that
is not is undefined, as is a null pointer or a range that leaves its array. -/
def memcpy (bytewise : Bool) (dst : Ptr T) (d : Nat) (src : Ptr T) (s n : Nat) :
    Option (Ptr T) :=
  if n ≠ 0 ∧ bytewise = false then none else copy_slots dst d src s n

end Ptr

namespace Ref

variable {T : Type}

/-- Reading the object behind a reference while the array of the call is `arr`; `none`
when the reference is to a slot that `arr` does not have. -/
def read (value : Ref T) (arr : Ptr T) : Option (Option T) :=
  match value with
  | outside v => some (some v)
  | element i => Ptr.load arr i

/-- Reading the object behind a reference after `if (arr != nullptr) delete [] arr;`;
`none` when the reference is to a slot of that array, which is freed, or which a null `arr`
never had. -/
def read_deleted (value : Ref T) : Option (Option T) :=
  match value with
  | outside v => some (some v)
  | element _ => none

end Ref

namespace DynamicVector

variable {T : Type}

/-- The expression `new T[n]`: a fresh array of `n` unwritten slots, or `nullptr` when
no storage is obtained. -/
def new_array (T : Type) (heap : Bool) (n : Nat) : Ptr T :=
  if heap then Ptr.block (List.replicate n none) else Ptr.nullptr

/-- The subtraction `a - b` of two `size_t` values. -/
def size_t_sub (a b : Nat) : Nat := (a + 2 ^ 64 - b % 2 ^ 64) % 2 ^ 64

/-- The default constructor `DynamicVector()`. -/
def empty : DynamicVector T :=
  { curr_size := 0, capacity := 0, arr := Ptr.nullptr }

/-- The member function `nullify`. Its `delete [] arr` under `capacity > 0` destroys the
objects of the array and frees it, which leaves the members to the three assignments. -/
def nullify (_s : DynamicVector T) : DynamicVector T :=
  { curr_size := 0, capacity := 0, arr := Ptr.nullptr }

/-- The capacity chosen by `push` and `insert` when the array is full. -/
def grown (capacity : Nat) : Nat :=
  if capacity = 0 then 1 else capacity * 2

/-- The member function `push`. In the reallocating branch `value` is read in
`arr[curr_size] = value`, after `delete [] arr` and `arr = new_arr`. -/
def push [Element T] (heap : Bool) (s : DynamicVector T) (value : Ref T) : Outcome T :=
  if s.curr_size ≥ s.capacity then
    let capacity := grown s.capacity
    match new_array T heap capacity with
    | Ptr.nullptr => Outcome.thrown Thrown.alloc_failure { s with capacity := capacity }
    | new_arr =>
      match (if s.curr_size ≥ 1 then
               Ptr.memcpy (trivially_copyable T) new_arr 0 s.arr 0 s.curr_size
             else some new_arr) with
      | none => Outcome.undefined
      | some new_arr =>
        match value.read_deleted.bind fun x => Ptr.store new_arr s.curr_size x with
        | none => Outcome.undefined
        | some arr =>
          Outcome.done { curr_size := s.curr_size + 1, capacity := capacity, arr := arr }
  else
    match (value.read s.arr).bind fun x => Ptr.store s.arr s.curr_size x with
    | none => Outcome.undefined
    | some arr => Outcome.done { s with arr := arr, curr_size := s.curr_size + 1 }

/-- The loop `for (unsigned i = erase_index + 1; i < curr_size; i++) arr[i - 1] = arr[i];`
of `erase`, entered at counter `i` with `n = curr_size - i` rounds to go. -/
def erase_loop : Nat → Nat → Ptr T → Option (Ptr T)
  | 0, _, arr => some arr
  | n + 1, i, arr =>
    match Ptr.move arr (i - 1) i with
    | none => none
    | some arr => erase_loop n (i + 1) arr

/-- The member function `erase`. -/
def erase [Element T] (heap : Bool) (s : DynamicVector T) (erase_index : Nat) : Outcome T :=
  if erase_index < s.curr_size then
    match erase_loop (s.curr_size - (erase_index + 1)) (erase_index + 1) s.arr with
    | none => Outcome.undefined
    | some arr =>
      let curr_size := s.curr_size - 1
      if curr_size < s.capacity / 2 then
        match new_array T heap (s.capacity / 2) with
        | Ptr.nullptr =>
          Outcome.thrown Thrown.alloc_failure { s with arr := arr, curr_size := curr_size }
        | new_arr =>
          match (if curr_size ≥ 1 then
                   Ptr.memcpy (trivially_copyable T) new_arr 0 arr 0 curr_size
                 else some new_arr) with
          | none => Outcome.undefined
          | some new_arr =>
            Outcome.done { curr_size := curr_size, capacity := s.capacity / 2, arr := new_arr }
      else Outcome.done { s with arr := arr, curr_size := curr_size }
  else Outcome.done s

/-- The loop `for (unsigned i = curr_size - 1; i > insert_index; i--) arr[i] = arr[i - 1];`
of `insert`, entered at counter `i` with `n = i - insert_index` rounds to go. -/
def insert_loop : Nat → Nat → Ptr T → Option (Ptr T)
  | 0, _, arr => some arr
  | n + 1, i, arr =>
    match Ptr.move arr i (i - 1) with
    | none => none
    | some arr => insert_loop n (i - 1) arr

/-- The member function `insert`. In the reallocating branch `value` is read in
`new_arr[insert_index] = value`, before `delete [] arr`; in the other branch it is read in
`arr[insert_index] = value`, after the loop has shifted the elements. -/
def insert [Element T] (heap : Bool) (s : DynamicVector T) (value : Ref T)
    (insert_index : Nat) : Outcome T :=
  if insert_index ≤ s.curr_size then
    if s.curr_size ≥ s.capacity then
      let capacity := grown s.capacity
      match new_array T heap capacity with
      | Ptr.nullptr => Outcome.thrown Thrown.alloc_failure { s with capacity := capacity }
      | new_arr =>
        match (if s.curr_size ≥ 1 then
                 (Ptr.memcpy (trivially_copyable T) new_arr 0 s.arr 0 insert_index).bind
                   fun new_arr =>
                 ((value.read s.arr).bind fun x => Ptr.store new_arr insert_index x).bind
                   fun new_arr =>
                 Ptr.memcpy (trivially_copyable T) new_arr (insert_index + 1) s.arr
                   insert_index (s.curr_size - insert_index)
               else (value.read s.arr).bind fun x => Ptr.store new_arr 0 x) with
        | none => Outcome.undefined
        | some new_arr =>
          Outcome.done { curr_size := s.curr_size + 1, capacity := capacity, arr := new_arr }
    else
      let curr_size := s.curr_size + 1
      match insert_loop (curr_size - 1 - insert_index) (curr_size - 1) s.arr with
      | none => Outcome.undefined
      | some arr =>
        match (value.read arr).bind fun x => Ptr.store arr insert_index x with
        | none => Outcome.undefined
        | some arr => Outcome.done { s with curr_size := curr_size, arr := arr }
  else if insert_index = s.curr_size then push heap s value
  else Outcome.done s

/-- The copy assignment `operator=`; `self_assignment` is the outcome of the test
`this == &copy_vector`. -/
def operator_assign [Element T] (heap self_assignment : Bool)
    (this copy_vector : DynamicVector T) : Outcome T :=
  if !self_assignment then
    let cleared := nullify this
    let curr_size := copy_vector.curr_size
    let capacity := copy_vector.capacity
    match new_array T heap capacity with
    | Ptr.nullptr =>
      Outcome.thrown Thrown.alloc_failure
        { cleared with curr_size := curr_size, capacity := capacity }
    | arr =>
      match (if curr_size ≥ 1 then
               Ptr.memcpy (trivially_copyable T) arr 0 copy_vector.arr 0 curr_size
             else some arr) with
      | none => Outcome.undefined
      | some arr => Outcome.done { curr_size := curr_size, capacity := capacity, arr := arr }
  else Outcome.done this

/-- The copy constructor: the members start as in `empty`, then `*this = copy_vector`. -/
def copy_construct [Element T] (heap : Bool) (copy_vector : DynamicVector T) : Outcome T :=
  operator_assign heap false empty copy_vector

/-- The member function `operator[]`. -/
def operator_subscript (s : DynamicVector T) (i : Nat) : Access T :=
  if i > size_t_sub s.curr_size 1 then Access.thrown Thrown.out_of_bounds
  else
    match Ptr.load s.arr i with
    | none => Access.undefined
    | some x => Access.ref x

/-- The element sequence of a vector: the slots at the indices `[0, curr_size)`. -/
def elements (s : DynamicVector T) : List (Option T) :=
  match s.arr with
  | Ptr.nullptr => []
  | Ptr.block a => a.take s.curr_size

/-- The member `arr` points at exactly `capacity` slots (`nullptr` counting as none). -/
def Allocated (s : DynamicVector T) : Prop := s.arr.slots = s.capacity

instance (s : DynamicVector T) : Decidable (Allocated s) :=
  inferInstanceAs (Decidable (s.arr.slots = s.capacity))

/-- The states reached from the default-constructed vector by calls of `push`, `insert`,
`erase`, `operator=` (from a reached vector) and `nullify` that return. -/
inductive Reachable [Element T] : DynamicVector T → Prop where
  | init : Reachable empty
  | push (heap : Bool) (v : Ref T) {s s' : DynamicVector T} :
      Reachable s → push heap s v = Outcome.done s' → Reachable s'
  | insert (heap : Bool) (v : Ref T) (k : Nat) {s s' : DynamicVector T} :
      Reachable s → insert heap s v k = Outcome.done s' → Reachable s'
  | erase (heap : Bool) (k : Nat) {s s' : DynamicVector T} :
      Reachable s → erase heap s k = Outcome.done s' → Reachable s'
  | assign (heap self : Bool) {s t s' : DynamicVector T} :
      Reachable s → Reachable t → operator_assign heap self s t = Outcome.done s' →
      Reachable s'
  | nullify {s : DynamicVector T} : Reachable s → Reachable (nullify s)

/-- The calls `push(v)` for the arguments `v` of a list, one after another; the run ends at
the first call that does not return. -/
def push_each [Element T] (heap : Bool) : List (Ref T) → DynamicVector T → Outcome T
  | [], s => Outcome.done s
  | v :: vs, s =>
    match push heap s v with
    | Outcome.done s' => push_each heap vs s'
    | o => o

/-- The calls `erase(k)` for the indices `k` of a list, one after another; the run ends at
the first call that does not return. -/
def erase_each [Element T] (heap : Bool) : List Nat → DynamicVector T → Outcome T
  | [], s => Outcome.done s
  | k :: ks, s =>
    match erase heap s k with
    | Outcome.done s' => erase_each heap ks s'
    | o => o

/-- The number of calls in the run `push_each` that return with another capacity than they
found. -/
def reallocations [Element T] (heap : Bool) : List (Ref T) → DynamicVector T → Nat
  | [], _ => 0
  | v :: vs, s =>
    match push heap s v with
    | Outcome.done s' =>
      (if s'.capacity = s.capacity then 0 else 1) + reallocations heap vs s'
    | _ => 0

/-- Whether each index of a list is below the size that the calls of `erase` for the
indices before it leave of a vector of size `n`. -/
def valid_indices : List Nat → Nat → Bool
  | [], _ => true
  | k :: ks, n => decide (k < n) && valid_indices ks (n - 1)

end DynamicVector

open DynamicVector

/-! ## `memcpy` and the two shifting loops -/

/-- For a trivially copyable element type `memcpy` is the copy of the slots' content. -/
theorem memcpy_bytewise {T : Type} (dst : Ptr T) (d : Nat) (src : Ptr T) (s n : Nat) :
    Ptr.memcpy true dst d src s n = Ptr.copy_slots dst d src s n := by
  simp only [Ptr.memcpy, Bool.true_eq_false, and_false, if_false]

/-- What the left-shifting loop of `erase` leaves in an array that holds the slots
`[i - 1, i + n)`: the slots `[i - 1, i - 1 + n)` take the content of their right neighbour. -/
theorem erase_loop_block {T : Type} (n : Nat) :
    ∀ (i : Nat) (a : List (Option T)), 1 ≤ i → i + n ≤ a.length →
      ∃ b, erase_loop n i (Ptr.block a) = some (Ptr.block b) ∧ b.length = a.length ∧
        ∀ j, b[j]? = if i - 1 ≤ j ∧ j < i - 1 + n then a[j + 1]? else a[j]? := by
  induction n with
  | zero =>
    intro i a _ _
    refine ⟨a, rfl, rfl, fun j => ?_⟩
    have h0 : ¬ (i - 1 ≤ j ∧ j < i - 1 + 0) := by omega
    rw [if_neg h0]
  | succ n ih =>
    intro i a hi hlen
    have hlt : i < a.length := by omega
    have hlt1 : i - 1 < a.length := by omega
    obtain ⟨b, hb, hblen, hbj⟩ := ih (i + 1) (a.set (i - 1) a[i]) (by omega)
      (by rw [List.length_set]; omega)
    refine ⟨b, ?_, ?_, fun j => ?_⟩
    · simp only [erase_loop, Ptr.move, Ptr.load, List.getElem?_eq_getElem hlt, Ptr.store,
        if_pos hlt1]
      exact hb
    · rw [hblen, List.length_set]
    · rw [hbj j]
      simp only [List.getElem?_set, Nat.add_sub_cancel]
      by_cases h1 : i ≤ j ∧ j < i + n
      · have h2 : i - 1 ≤ j ∧ j < i - 1 + (n + 1) := by omega
        have h3 : ¬ (i - 1 = j + 1) := by omega
        rw [if_pos h1, if_pos h2, if_neg h3]
      · rw [if_neg h1]
        by_cases h4 : i - 1 = j
        · have h2 : i - 1 ≤ j ∧ j < i - 1 + (n + 1) := by omega
          have h5 : j + 1 = i := by omega
          rw [if_pos h4, if_pos hlt1, if_pos h2]
          subst h5
          exact (List.getElem?_eq_getElem hlt).symm
        · have h2 : ¬ (i - 1 ≤ j ∧ j < i - 1 + (n + 1)) := by omega
          rw [if_neg h4, if_neg h2]

/-- What the right-shifting loop of `insert` leaves in an array that holds the slots
`[i - n, i]`: the slots `(i - n, i]` take the content of their left neighbour. -/
theorem insert_loop_block {T : Type} (n : Nat) :
    ∀ (i : Nat) (a : List (Option T)), n ≤ i → i < a.length →
      ∃ b, insert_loop n i (Ptr.block a) = some (Ptr.block b) ∧ b.length = a.length ∧
        ∀ j, b[j]? = if i - n < j ∧ j ≤ i then a[j - 1]? else a[j]? := by
  induction n with
  | zero =>
    intro i a _ _
    refine ⟨a, rfl, rfl, fun j => ?_⟩
    have h0 : ¬ (i - 0 < j ∧ j ≤ i) := by omega
    rw [if_neg h0]
  | succ n ih =>
    intro i a hi hlen
    have hlt1 : i - 1 < a.length := by omega
    obtain ⟨b, hb, hblen, hbj⟩ := ih (i - 1) (a.set i a[i - 1]) (by omega)
      (by rw [List.length_set]; omega)
    refine ⟨b, ?_, ?_, fun j => ?_⟩
    · simp only [insert_loop, Ptr.move, Ptr.load, List.getElem?_eq_getElem hlt1, Ptr.store,
        if_pos hlen]
      exact hb
    · rw [hblen, List.length_set]
    · rw [hbj j]
      simp only [List.getElem?_set]
      by_cases h1 : i - 1 - n < j ∧ j ≤ i - 1
      · have h2 : i - (n + 1) < j ∧ j ≤ i := by omega
        have h3 : ¬ (i = j - 1) := by omega
        rw [if_pos h1, if_pos h2, if_neg h3]
      · rw [if_neg h1]
        by_cases h4 : i = j
        · have h2 : i - (n + 1) < j ∧ j ≤ i := by omega
          rw [if_pos h4, if_pos hlen, if_pos h2]
          subst h4
          exact (List.getElem?_eq_getElem hlt1).symm
        · have h2 : ¬ (i - (n + 1) < j ∧ j ≤ i) := by omega
          rw [if_neg h4, if_neg h2]

/-! ## Lists seen slot by slot -/

/-- Slot `j` of an array `a` after `n` slots of `b` from `s` on were copied over its slots
from `d` on. -/
theorem getElem?_copied {α : Type} (a b : List α) (d s n j : Nat)
    (ha : d + n ≤ a.length) (hb : s + n ≤ b.length) :
    (a.take d ++ (b.drop s).take n ++ a.drop (d + n))[j]? =
      if d ≤ j ∧ j < d + n then b[s + (j - d)]? else a[j]? := by
  simp only [List.getElem?_append, List.getElem?_take, List.getElem?_drop, List.length_append,
    List.length_take, List.length_drop]
  split_ifs <;> first | rfl | omega | (congr 1; omega)

/-- Slot `j` of a list with `x` put in at position `k`. -/
theorem getElem?_put_in {α : Type} (e : List α) (x : α) (k j : Nat) (hk : k ≤ e.length) :
    (e.take k ++ x :: e.drop k)[j]? =
      if j < k then e[j]? else if j = k then some x else e[j - 1]? := by
  simp only [List.getElem?_append, List.getElem?_take, List.getElem?_drop, List.length_take,
    List.getElem?_cons]
  split_ifs <;> first | rfl | omega | (congr 1; omega)

/-- Slot `j` of a list with position `k` taken out. -/
theorem getElem?_taken_out {α : Type} (e : List α) (k j : Nat) (hk : k < e.length) :
    (e.take k ++ e.drop (k + 1))[j]? = if j < k then e[j]? else e[j + 1]? := by
  simp only [List.getElem?_append, List.getElem?_take, List.getElem?_drop, List.length_take]
  split_ifs <;> first | rfl | omega | (congr 1; omega)

/-! ## Elements and storage -/

/-- A vector whose array has `capacity` slots, `curr_size` of them in use, has exactly
`curr_size` elements. -/
theorem elements_length {T : Type} (s : DynamicVector T) (hsz : s.curr_size ≤ s.capacity)
    (hbuf : Allocated s) : (elements s).length = s.curr_size := by
  obtain ⟨sz, cap, arr⟩ := s
  cases arr with
  | nullptr =>
    simp only [Allocated, Ptr.slots] at hbuf
    simp only [elements, List.length_nil]
    simp only at hsz
    omega
  | block a =>
    simp only [Allocated, Ptr.slots] at hbuf
    simp only at hsz
    simp only [elements, List.length_take]
    omega

/-- The effect of `push` for a trivially copyable element type and a value outside the
array, when storage is obtained: the call returns, its capacity is the old one if there
was a spare slot and the grown one otherwise, the array again has `capacity` slots, and
`value` is appended to the elements. -/
theorem push_spec {T : Type} [Element T] (htc : trivially_copyable T = true)
    (s : DynamicVector T) (v : T) (hsz : s.curr_size ≤ s.capacity) (hbuf : Allocated s) :
    ∃ s', push true s (Ref.outside v) = Outcome.done s' ∧
      s'.curr_size = s.curr_size + 1 ∧
      s'.capacity = (if s.curr_size < s.capacity then s.capacity else grown s.capacity) ∧
      Allocated s' ∧ elements s' = elements s ++ [some v] := by
  obtain ⟨sz, cap, arr⟩ := s
  simp only [Allocated] at hbuf
  simp only at hsz
  by_cases hfull : sz ≥ cap
  · have hg : sz < grown cap := by
      unfold grown
      split <;> omega
    by_cases h1 : sz ≥ 1
    · cases arr with
      | nullptr => simp only [Ptr.slots] at hbuf; omega
      | block a =>
        simp only [Ptr.slots] at hbuf
        have hc : 0 + sz ≤ (List.replicate (grown cap) (none : Option T)).length ∧
            0 + sz ≤ a.length := by
          rw [List.length_replicate]; omega
        have hst : sz < (List.take 0 (List.replicate (grown cap) (none : Option T)) ++
            List.take sz (List.drop 0 a) ++
            List.drop (0 + sz) (List.replicate (grown cap) none)).length := by
          simp only [List.length_append, List.length_take, List.length_drop,
            List.length_replicate]
          omega
        refine ⟨⟨sz + 1, grown cap, Ptr.block ((List.take 0 (List.replicate (grown cap) none) ++
            List.take sz (List.drop 0 a) ++
            List.drop (0 + sz) (List.replicate (grown cap) none)).set sz (some v))⟩,
            ?_, rfl, ?_, ?_, ?_⟩
        · simp only [push, if_pos hfull, new_array, if_true, if_pos h1, htc, memcpy_bytewise,
            Ptr.copy_slots, if_pos hc, Ref.read_deleted, Option.some_bind, Ptr.store,
            if_pos hst]
        · exact (if_neg (show ¬ sz < cap by omega)).symm
        · simp only [Allocated, Ptr.slots, List.length_set, List.length_append,
            List.length_take, List.length_drop, List.length_replicate]
          omega
        · simp only [elements]
          apply List.ext_getElem?
          intro j
          simp only [List.getElem?_take, List.getElem?_set, List.getElem?_append,
            List.length_append, List.length_take, List.length_drop, List.length_replicate,
            List.getElem?_drop, List.length_cons, List.length_nil, List.getElem?_cons,
            List.getElem?_replicate, List.getElem?_nil]
          split_ifs <;> first | rfl | omega | (congr 1; omega)
    · have hz : sz = 0 := by omega
      subst hz
      have hst : 0 < (List.replicate (grown cap) (none : Option T)).length := by
        rw [List.length_replicate]; exact hg
      have hold : elements (⟨0, cap, arr⟩ : DynamicVector T) = [] := by
        cases arr <;> simp [elements]
      refine ⟨⟨0 + 1, grown cap, Ptr.block ((List.replicate (grown cap) none).set 0 (some v))⟩,
        ?_, rfl, ?_, ?_, ?_⟩
      · simp only [push, if_pos hfull, new_array, if_true, if_neg h1, Ref.read_deleted,
          Option.some_bind, Ptr.store, if_pos hst]
      · exact (if_neg (show ¬ 0 < cap by omega)).symm
      · simp only [Allocated, Ptr.slots, List.length_set, List.length_replicate]
      · rw [hold]
        simp only [elements]
        apply List.ext_getElem?
        intro j
        simp only [List.getElem?_take, List.getElem?_set, List.length_replicate,
          List.getElem?_replicate, List.nil_append, List.getElem?_cons, List.getElem?_nil]
        split_ifs <;> first | rfl | omega
  · cases arr with
    | nullptr => simp only [Ptr.slots] at hbuf; omega
    | block a =>
      simp only [Ptr.slots] at hbuf
      have hst : sz < a.length := by omega
      refine ⟨⟨sz + 1, cap, Ptr.block (a.set sz (some v))⟩, ?_, rfl, ?_, ?_, ?_⟩
      · simp only [push, if_neg hfull, Ref.read, Option.some_bind, Ptr.store, if_pos hst]
      · exact (if_pos (show sz < cap by omega)).symm
      · simp only [Allocated, Ptr.slots, List.length_set]
        exact hbuf
      · simp only [elements]
        apply List.ext_getElem?
        intro j
        simp only [List.getElem?_take, List.getElem?_set, List.getElem?_append,
          List.length_take, List.getElem?_cons, List.getElem?_nil]
        split_ifs <;> first | rfl | omega

/-- The effect of `insert` at an index `k ≤ curr_size` for a trivially copyable element
type and a value outside the array, when storage is obtained: the call returns, the
capacity follows the rule of `push`, the array again has `capacity` slots, and `value`
stands at position `k` between the old elements before and from `k`. -/
theorem insert_spec {T : Type} [Element T] (htc : trivially_copyable T = true)
    (s : DynamicVector T) (v : T) (k : Nat)
    (hsz : s.curr_size ≤ s.capacity) (hbuf : Allocated s) (hk : k ≤ s.curr_size) :
    ∃ s', DynamicVector.insert true s (Ref.outside v) k = Outcome.done s' ∧
      s'.curr_size = s.curr_size + 1 ∧
      s'.capacity = (if s.curr_size < s.capacity then s.capacity else grown s.capacity) ∧
      Allocated s' ∧
      elements s' = (elements s).take k ++ some v :: (elements s).drop k := by
  obtain ⟨sz, cap, arr⟩ := s
  simp only [Allocated] at hbuf
  simp only at hsz hk
  by_cases hfull : sz ≥ cap
  · have hg : sz < grown cap := by
      unfold grown
      split <;> omega
    by_cases h1 : sz ≥ 1
    · cases arr with
      | nullptr => simp only [Ptr.slots] at hbuf; omega
      | block a =>
        simp only [Ptr.slots] at hbuf
        have hRlen : (List.replicate (grown cap) (none : Option T)).length = grown cap :=
          List.length_replicate _ _
        have hc1 : 0 + k ≤ (List.replicate (grown cap) (none : Option T)).length ∧
            0 + k ≤ a.length := by
          rw [hRlen]; omega
        have hM := fun j => getElem?_copied (List.replicate (grown cap) (none : Option T)) a
          0 0 k j hc1.1 hc1.2
        have hMlen : (List.take 0 (List.replicate (grown cap) (none : Option T)) ++
            List.take k (List.drop 0 a) ++
            List.drop (0 + k) (List.replicate (grown cap) none)).length = grown cap := by
          simp only [List.length_append, List.length_take, List.length_drop,
            List.length_replicate]
          omega
        have hst : k < (List.take 0 (List.replicate (grown cap) (none : Option T)) ++
            List.take k (List.drop 0 a) ++
            List.drop (0 + k) (List.replicate (grown cap) none)).length := by
          rw [hMlen]; omega
        have hc2 : k + 1 + (sz - k) ≤
            ((List.take 0 (List.replicate (grown cap) (none : Option T)) ++
              List.take k (List.drop 0 a) ++
              List.drop (0 + k) (List.replicate (grown cap) none)).set k (some v)).length ∧
            k + (sz - k) ≤ a.length := by
          rw [List.length_set, hMlen]; omega
        have hrun : DynamicVector.insert true ⟨sz, cap, Ptr.block a⟩ (Ref.outside v) k =
            Outcome.done ⟨sz + 1, grown cap, Ptr.block
              (List.take (k + 1)
                ((List.take 0 (List.replicate (grown cap) none) ++
                  List.take k (List.drop 0 a) ++
                  List.drop (0 + k) (List.replicate (grown cap) none)).set k (some v)) ++
              List.take (sz - k) (List.drop k a) ++
              List.drop (k + 1 + (sz - k))
                ((List.take 0 (List.replicate (grown cap) none) ++
                  List.take k (List.drop 0 a) ++
                  List.drop (0 + k) (List.replicate (grown cap) none)).set k (some v)))⟩ := by
          simp only [DynamicVector.insert, if_pos hk, if_pos hfull, new_array, if_true,
            if_pos h1, htc, memcpy_bytewise, Ptr.copy_slots, if_pos hc1, Ref.read,
            Option.some_bind, Ptr.store, if_pos hst, if_pos hc2]
        generalize List.take 0 (List.replicate (grown cap) (none : Option T)) ++
            List.take k (List.drop 0 a) ++
            List.drop (0 + k) (List.replicate (grown cap) none) = M at hM hMlen hst hc2 hrun
        have hB := fun j => getElem?_copied (M.set k (some v)) a (k + 1) k (sz - k) j hc2.1 hc2.2
        refine ⟨_, hrun, rfl, ?_, ?_, ?_⟩
        · exact (if_neg (show ¬ sz < cap by omega)).symm
        · simp only [Allocated, Ptr.slots, List.length_set, List.length_append,
            List.length_take, List.length_drop]
          omega
        · simp only [elements]
          apply List.ext_getElem?
          intro j
          rw [getElem?_put_in _ _ k j (by rw [List.length_take]; omega)]
          simp only [List.getElem?_take, hB, List.getElem?_set, hM, List.getElem?_replicate]
          split_ifs <;> first | rfl | omega | (congr 1; omega)
    · have hz : sz = 0 := by omega
      subst hz
      have hk0 : k = 0 := by omega
      subst hk0
      have hst : 0 < (List.replicate (grown cap) (none : Option T)).length := by
        rw [List.length_replicate]; exact hg
      have hold : elements (⟨0, cap, arr⟩ : DynamicVector T) = [] := by
        cases arr <;> simp [elements]
      refine ⟨⟨0 + 1, grown cap, Ptr.block ((List.replicate (grown cap) none).set 0 (some v))⟩,
        ?_, rfl, ?_, ?_, ?_⟩
      · simp only [DynamicVector.insert, if_pos hk, if_pos hfull, new_array, if_true, if_neg h1,
          Ref.read, Option.some_bind, Ptr.store, if_pos hst]
      · exact (if_neg (show ¬ 0 < cap by omega)).symm
      · simp only [Allocated, Ptr.slots, List.length_set, List.length_replicate]
      · rw [hold]
        simp only [elements]
        apply List.ext_getElem?
        intro j
        simp only [List.getElem?_take, List.getElem?_set, List.length_replicate,
          List.getElem?_replicate, List.take_nil, List.drop_nil, List.nil_append,
          List.getElem?_cons, List.getElem?_nil]
        split_ifs <;> first | rfl | omega
  · cases arr with
    | nullptr => simp only [Ptr.slots] at hbuf; omega
    | block a =>
      simp only [Ptr.slots] at hbuf
      obtain ⟨b, hb, hblen, hbj⟩ := insert_loop_block (sz - k) sz a (by omega) (by omega)
      have hst : k < b.length := by omega
      refine ⟨⟨sz + 1, cap, Ptr.block (b.set k (some v))⟩, ?_, rfl, ?_, ?_, ?_⟩
      · simp only [DynamicVector.insert, if_pos hk, if_neg hfull, Nat.add_sub_cancel, hb,
          Ref.read, Option.some_bind, Ptr.store, if_pos hst]
      · exact (if_pos (show sz < cap by omega)).symm
      · simp only [Allocated, Ptr.slots, List.length_set]
        omega
      · simp only [elements]
        apply List.ext_getElem?
        intro j
        rw [getElem?_put_in _ _ k j (by rw [List.length_take]; omega)]
        simp only [List.getElem?_take, List.getElem?_set, hbj]
        split_ifs <;> first | rfl | omega

/-- The effect of `erase` at an index `k < curr_size` for a trivially copyable element
type, when storage is obtained: the call returns, the size drops by one, the capacity is
halved exactly when the new size is below half of it, the array again has `capacity`
slots, and the element at `k` is gone. -/
theorem erase_spec {T : Type} [Element T] (htc : trivially_copyable T = true)
    (s : DynamicVector T) (k : Nat)
    (hsz : s.curr_size ≤ s.capacity) (hbuf : Allocated s) (hk : k < s.curr_size) :
    ∃ s', erase true s k = Outcome.done s' ∧ s'.curr_size = s.curr_size - 1 ∧
      s'.capacity =
        (if s.curr_size - 1 < s.capacity / 2 then s.capacity / 2 else s.capacity) ∧
      Allocated s' ∧
      elements s' = (elements s).take k ++ (elements s).drop (k + 1) := by
  obtain ⟨sz, cap, arr⟩ := s
  simp only [Allocated] at hbuf
  simp only at hsz hk
  cases arr with
  | nullptr => simp only [Ptr.slots] at hbuf; omega
  | block a =>
    simp only [Ptr.slots] at hbuf
    obtain ⟨b, hb, hblen, hbj⟩ :=
      erase_loop_block (sz - (k + 1)) (k + 1) a (by omega) (by omega)
    simp only [Nat.add_sub_cancel] at hbj
    have hspec : ∀ j, (List.take k (List.take sz a) ++ List.drop (k + 1) (List.take sz a))[j]? =
        if j < k then (List.take sz a)[j]? else (List.take sz a)[j + 1]? := fun j =>
      getElem?_taken_out _ k j (by rw [List.length_take]; omega)
    by_cases hshrink : sz - 1 < cap / 2
    · by_cases h1 : sz - 1 ≥ 1
      · have hc : 0 + (sz - 1) ≤ (List.replicate (cap / 2) (none : Option T)).length ∧
            0 + (sz - 1) ≤ b.length := by
          rw [List.length_replicate]; omega
        have hN := fun j => getElem?_copied (List.replicate (cap / 2) (none : Option T)) b
          0 0 (sz - 1) j hc.1 hc.2
        refine ⟨⟨sz - 1, cap / 2, Ptr.block
          (List.take 0 (List.replicate (cap / 2) none) ++ List.take (sz - 1) (List.drop 0 b) ++
            List.drop (0 + (sz - 1)) (List.replicate (cap / 2) none))⟩, ?_, rfl, ?_, ?_, ?_⟩
        · simp only [erase, if_pos hk, hb, if_pos hshrink, new_array, if_true, if_pos h1,
            htc, memcpy_bytewise, Ptr.copy_slots, if_pos hc]
        · exact (if_pos hshrink).symm
        · simp only [Allocated, Ptr.slots, List.length_append, List.length_take,
            List.length_drop, List.length_replicate]
          omega
        · simp only [elements]
          apply List.ext_getElem?
          intro j
          rw [hspec]
          simp only [List.getElem?_take, hN, hbj, List.getElem?_replicate]
          split_ifs <;> first | rfl | omega | (congr 1; omega)
      · refine ⟨⟨sz - 1, cap / 2, Ptr.block (List.replicate (cap / 2) none)⟩,
          ?_, rfl, ?_, ?_, ?_⟩
        · simp only [erase, if_pos hk, hb, if_pos hshrink, new_array, if_true, if_neg h1]
        · exact (if_pos hshrink).symm
        · simp only [Allocated, Ptr.slots, List.length_replicate]
        · simp only [elements]
          apply List.ext_getElem?
          intro j
          rw [hspec]
          simp only [List.getElem?_take, List.getElem?_replicate]
          split_ifs <;> first | rfl | omega
    · refine ⟨⟨sz - 1, cap, Ptr.block b⟩, ?_, rfl, ?_, ?_, ?_⟩
      · simp only [erase, if_pos hk, hb, if_neg hshrink]
      · exact (if_neg hshrink).symm
      · simp only [Allocated, Ptr.slots]
        omega
      · simp only [elements]
        apply List.ext_getElem?
        intro j
        rw [hspec]
        simp only [List.getElem?_take, hbj]
        split_ifs <;> first | rfl | omega

/-! ## The manipulators on an argument inside the array and on strings -/

/-- C1, evaluated where it fails. On the full vector `[1]` of `int`, reached by one `push`,
`push(v[0])` reads its argument after `delete [] arr`, in the freed array: undefined. On
the full vector `["a"]` of `string`, reached by one `push`, `push("b")` moves the string
with `memcpy` and destroys the original: undefined. -/
theorem push_fails_to_append :
    (push true (empty : DynamicVector Int) (Ref.outside 1) =
        Outcome.done ⟨1, 1, Ptr.block [some 1]⟩ ∧
      push true (⟨1, 1, Ptr.block [some 1]⟩ : DynamicVector Int) (Ref.element 0) =
        Outcome.undefined) ∧
    (push true (empty : DynamicVector String) (Ref.outside "a") =
        Outcome.done ⟨1, 1, Ptr.block [some "a"]⟩ ∧
      push true (⟨1, 1, Ptr.block [some "a"]⟩ : DynamicVector String) (Ref.outside "b") =
        Outcome.undefined) :=
  ⟨⟨by decide, by decide⟩, by decide, by decide⟩

/-- C2, evaluated where it fails. On the vector `[1, 2, 3]` of `int` with capacity 4,
`insert(v[2], 0)` reads its argument after the loop has shifted the elements: the argument
refers to 3 when the call starts, and the call returns `[2, 1, 2, 3]`. On the full vector
`["a"]` of `string`, `insert("x", 0)` moves the string with `memcpy`: undefined. -/
theorem insert_fails_to_place :
    (Ref.read (Ref.element 2) (Ptr.block [some (1 : Int), some 2, some 3, none]) =
        some (some 3) ∧
      DynamicVector.insert true
        (⟨3, 4, Ptr.block [some 1, some 2, some 3, none]⟩ : DynamicVector Int) (Ref.element 2) 0
        = Outcome.done ⟨4, 4, Ptr.block [some 2, some 1, some 2, some 3]⟩) ∧
    DynamicVector.insert true (⟨1, 1, Ptr.block [some "a"]⟩ : DynamicVector String)
      (Ref.outside "x") 0 = Outcome.undefined :=
  ⟨⟨by decide, by decide⟩, by decide⟩

/-- C3, evaluated where it fails. On the vector `["a", "b"]` of `string` with capacity 4,
`erase(0)` shrinks the array and moves the remaining string with `memcpy`: undefined. No
run of `push` reaches a vector of two strings without the same defect: the second `push`
is undefined already. -/
theorem erase_fails_on_strings :
    erase true (⟨2, 4, Ptr.block [some "a", some "b", none, none]⟩ : DynamicVector String) 0 =
      Outcome.undefined ∧
    push_each true [Ref.outside "a", Ref.outside "b"] (empty : DynamicVector String) =
      Outcome.undefined :=
  ⟨by decide, by decide⟩

/-! ## Indexed access and calls with an index out of range -/

/-- On a `size_t` value `n ≥ 1` the subtraction `n - 1` does not wrap. -/
theorem size_t_sub_one (n : Nat) (h1 : 1 ≤ n) (hn : n < 2 ^ 64) : size_t_sub n 1 = n - 1 := by
  unfold size_t_sub
  omega

/-- C4, evaluated where it fails: on the default-constructed vector `operator[](0)` does
not throw but reads through the null `arr`, and on the vector left by `push(5)` and
`erase(0)`, whose size is 0, `operator[](0)` returns a reference to the slot that still
holds 5. In both `curr_size - 1` wraps to `2 ^ 64 - 1`, which no index exceeds. -/
theorem subscript_at_size_zero :
    operator_subscript (empty : DynamicVector Int) 0 = Access.undefined ∧
    ∃ s1 s2, push true (empty : DynamicVector Int) (Ref.outside 5) = Outcome.done s1 ∧
      erase true s1 0 = Outcome.done s2 ∧ s2.curr_size = 0 ∧
      operator_subscript s2 0 = Access.ref (some 5) :=
  ⟨by decide, ⟨1, 1, Ptr.block [some 5]⟩, ⟨0, 1, Ptr.block [some 5]⟩, by decide, by decide,
    rfl, by decide⟩

/-- C5 fails as stated: `insert(7, 1)` on the default-constructed vector, an index above
the size, throws nothing; it returns and leaves the vector as it was. -/
theorem insert_above_size_counterexample :
    DynamicVector.insert true (empty : DynamicVector Int) (Ref.outside 7) 1 =
      Outcome.done empty ∧
    ¬ ∃ e s', DynamicVector.insert true (empty : DynamicVector Int) (Ref.outside 7) 1 =
      Outcome.thrown e s' := by
  refine ⟨by decide, ?_⟩
  rintro ⟨e, s', h⟩
  have h0 : DynamicVector.insert true (empty : DynamicVector Int) (Ref.outside 7) 1 =
      Outcome.done empty := by
    decide
  rw [h0] at h
  cases h

/-- C5, amended: for every vector and every index `k` above the size, `insert(v, k)`
throws nothing and returns with size, capacity and array unchanged. -/
theorem insert_above_size_ignored {T : Type} [Element T] (heap : Bool) (s : DynamicVector T)
    (v : Ref T) (k : Nat) (hk : s.curr_size < k) :
    DynamicVector.insert heap s v k = Outcome.done s := by
  have h1 : ¬ k ≤ s.curr_size := by omega
  have h2 : ¬ k = s.curr_size := by omega
  simp only [DynamicVector.insert, if_neg h1, if_neg h2]

/-- Witness of the amended C5: `insert(9, 5)` on the vector `[1, 2]`. -/
theorem insert_above_size_ignored_witness :
    (⟨2, 2, Ptr.block [some 1, some 2]⟩ : DynamicVector Int).curr_size < 5 ∧
    DynamicVector.insert true (⟨2, 2, Ptr.block [some 1, some 2]⟩ : DynamicVector Int)
      (Ref.outside 9) 5 = Outcome.done ⟨2, 2, Ptr.block [some 1, some 2]⟩ :=
  ⟨by decide,
    insert_above_size_ignored true ⟨2, 2, Ptr.block [some 1, some 2]⟩ (Ref.outside 9) 5
      (by decide)⟩

/-- C6: on every vector with `1 ≤ curr_size ≤ capacity` (a `size_t` value) whose array has
`capacity` slots, and for every index `i`, `operator[](i)` throws the out-of-bounds error
exactly when `i ≥ curr_size`, and for `i < curr_size` it returns a reference to the element
at position `i`. The function is `const`: it returns no new state, size and capacity stay
as they are. -/
theorem subscript_in_range {T : Type} (s : DynamicVector T) (i : Nat)
    (h1 : 1 ≤ s.curr_size) (hsz : s.curr_size ≤ s.capacity) (hbuf : Allocated s)
    (hword : s.curr_size < 2 ^ 64) :
    (operator_subscript s i = Access.thrown Thrown.out_of_bounds ↔ s.curr_size ≤ i) ∧
    (i < s.curr_size →
      ∃ x, (elements s)[i]? = some x ∧ operator_subscript s i = Access.ref x) := by
  obtain ⟨sz, cap, arr⟩ := s
  simp only [Allocated] at hbuf
  simp only at h1 hsz hword
  cases arr with
  | nullptr => simp only [Ptr.slots] at hbuf; omega
  | block a =>
    simp only [Ptr.slots] at hbuf
    have hsub := size_t_sub_one sz h1 hword
    dsimp only
    constructor
    · constructor
      · intro h
        by_contra hlt
        have hle : ¬ i > size_t_sub sz 1 := by omega
        have hia : i < a.length := by omega
        simp only [operator_subscript, if_neg hle, Ptr.load, List.getElem?_eq_getElem hia]
          at h
        cases h
      · intro h
        have hgt : i > size_t_sub sz 1 := by omega
        simp only [operator_subscript, if_pos hgt]
    · intro hlt
      have hle : ¬ i > size_t_sub sz 1 := by omega
      have hia : i < a.length := by omega
      refine ⟨a[i], ?_, ?_⟩
      · simp only [elements, List.getElem?_take, if_pos hlt, List.getElem?_eq_getElem hia]
      · simp only [operator_subscript, if_neg hle, Ptr.load, List.getElem?_eq_getElem hia]

/-- Witness of C6: index 1 of the vector `[4, 5]` of capacity 2. -/
theorem subscript_in_range_witness :
    (1 ≤ 2 ∧ 2 ≤ 2 ∧ Allocated (⟨2, 2, Ptr.block [some 4, some 5]⟩ : DynamicVector Int) ∧
      2 < 2 ^ 64) ∧
    (operator_subscript (⟨2, 2, Ptr.block [some 4, some 5]⟩ : DynamicVector Int) 1 =
        Access.thrown Thrown.out_of_bounds ↔ 2 ≤ 1) ∧
    (1 < 2 → ∃ x,
      (elements (⟨2, 2, Ptr.block [some 4, some 5]⟩ : DynamicVector Int))[1]? = some x ∧
      operator_subscript (⟨2, 2, Ptr.block [some 4, some 5]⟩ : DynamicVector Int) 1 =
        Access.ref x) :=
  ⟨⟨by decide, by decide, by decide, by decide⟩,
    subscript_in_range ⟨2, 2, Ptr.block [some 4, some 5]⟩ 1 (by decide) (by decide) (by decide)
      (by decide)⟩

/-- C7: for every vector and every index `k ≥ curr_size` (so every index on an empty
vector), `erase(k)` throws nothing and returns with size, capacity and array unchanged. -/
theorem erase_out_of_range_ignored {T : Type} [Element T] (heap : Bool) (s : DynamicVector T)
    (k : Nat)
    (hk : s.curr_size ≤ k) : erase heap s k = Outcome.done s := by
  have h1 : ¬ k < s.curr_size := by omega
  simp only [erase, if_neg h1]

/-- Witness of C7: `erase(2)` on the vector `[1, 2]`. -/
theorem erase_out_of_range_ignored_witness :
    (⟨2, 2, Ptr.block [some 1, some 2]⟩ : DynamicVector Int).curr_size ≤ 2 ∧
    erase true (⟨2, 2, Ptr.block [some 1, some 2]⟩ : DynamicVector Int) 2 =
      Outcome.done ⟨2, 2, Ptr.block [some 1, some 2]⟩ :=
  ⟨by decide, erase_out_of_range_ignored true ⟨2, 2, Ptr.block [some 1, some 2]⟩ 2 (by decide)⟩

/-! ## The size invariant -/

/-- The capacity chosen on growth exceeds the capacity it replaces. -/
theorem lt_grown (c : Nat) : c < grown c := by
  unfold grown
  split <;> omega

/-- A returning `push` keeps `curr_size ≤ capacity`. -/
theorem push_size_le {T : Type} [Element T] (heap : Bool) (s s' : DynamicVector T) (v : Ref T)
    (h : push heap s v = Outcome.done s') (hsz : s.curr_size ≤ s.capacity) :
    s'.curr_size ≤ s'.capacity := by
  have hg := lt_grown s.capacity
  unfold push at h
  split at h
  · dsimp only at h
    split at h
    · cases h
    · split at h
      · cases h
      · split at h
        · cases h
        · injection h with h
          subst h
          dsimp only
          omega
  · split at h
    · cases h
    · injection h with h
      subst h
      dsimp only
      omega

/-- A returning `insert` keeps `curr_size ≤ capacity`. -/
theorem insert_size_le {T : Type} [Element T] (heap : Bool) (s s' : DynamicVector T)
    (v : Ref T) (k : Nat)
    (h : DynamicVector.insert heap s v k = Outcome.done s') (hsz : s.curr_size ≤ s.capacity) :
    s'.curr_size ≤ s'.capacity := by
  have hg := lt_grown s.capacity
  unfold DynamicVector.insert at h
  split at h
  · split at h
    · dsimp only at h
      split at h
      · cases h
      · split at h
        · cases h
        · injection h with h
          subst h
          dsimp only
          omega
    · dsimp only at h
      split at h
      · cases h
      · split at h
        · cases h
        · injection h with h
          subst h
          dsimp only
          omega
  · split at h
    · exact push_size_le heap s s' v h hsz
    · injection h with h
      subst h
      exact hsz

/-- A returning `erase` keeps `curr_size ≤ capacity`. -/
theorem erase_size_le {T : Type} [Element T] (heap : Bool) (s s' : DynamicVector T) (k : Nat)
    (h : erase heap s k = Outcome.done s') (hsz : s.curr_size ≤ s.capacity) :
    s'.curr_size ≤ s'.capacity := by
  unfold erase at h
  split at h
  · split at h
    · cases h
    · dsimp only at h
      split at h
      · split at h
        · cases h
        · split at h
          · cases h
          · injection h with h
            subst h
            dsimp only
            omega
      · injection h with h
        subst h
        dsimp only
        omega
  · injection h with h
    subst h
    exact hsz

/-- A returning `operator=` keeps `curr_size ≤ capacity` when both vectors have it. -/
theorem assign_size_le {T : Type} [Element T] (heap self : Bool) (s t s' : DynamicVector T)
    (h : operator_assign heap self s t = Outcome.done s') (hs : s.curr_size ≤ s.capacity)
    (ht : t.curr_size ≤ t.capacity) : s'.curr_size ≤ s'.capacity := by
  unfold operator_assign at h
  split at h
  · dsimp only at h
    split at h
    · cases h
    · split at h
      · cases h
      · injection h with h
        subst h
        exact ht
  · injection h with h
    subst h
    exact hs

/-- C8: in every state reached from the default-constructed vector by any finite sequence
of returning calls of `push`, `insert` (any index), `erase` (any index), `operator=` from a
reached vector, and `nullify`, `curr_size ≤ capacity` holds (and `0 ≤ curr_size`, the
members being unsigned). -/
theorem reachable_size_le_capacity {T : Type} [Element T] (s : DynamicVector T)
    (h : Reachable s) :
    0 ≤ s.curr_size ∧ s.curr_size ≤ s.capacity := by
  refine ⟨Nat.zero_le _, ?_⟩
  induction h with
  | init => exact Nat.le_refl 0
  | push heap v _ hrun ih => exact push_size_le heap _ _ v hrun ih
  | insert heap v k _ hrun ih => exact insert_size_le heap _ _ v k hrun ih
  | erase heap k _ hrun ih => exact erase_size_le heap _ _ k hrun ih
  | assign heap self _ _ hrun ihs iht => exact assign_size_le heap self _ _ _ hrun ihs iht
  | nullify _ _ => exact Nat.le_refl 0

/-- Witness of C8: the state after `push(1)`, `push(2)`, `push(3)`, `erase(0)`. -/
theorem reachable_size_le_capacity_witness :
    Reachable (⟨2, 4, Ptr.block [some 2, some 3, some 3, none]⟩ : DynamicVector Int) ∧
    0 ≤ (⟨2, 4, Ptr.block [some 2, some 3, some 3, none]⟩ : DynamicVector Int).curr_size ∧
    (⟨2, 4, Ptr.block [some 2, some 3, some 3, none]⟩ : DynamicVector Int).curr_size ≤
      (⟨2, 4, Ptr.block [some 2, some 3, some 3, none]⟩ : DynamicVector Int).capacity :=
  have hr : Reachable (⟨2, 4, Ptr.block [some 2, some 3, some 3, none]⟩ : DynamicVector Int) :=
    Reachable.erase true 0
      (Reachable.push true (Ref.outside 3)
        (Reachable.push true (Ref.outside 2)
          (Reachable.push true (Ref.outside 1) Reachable.init
            (show push true empty (Ref.outside 1) =
              Outcome.done ⟨1, 1, Ptr.block [some 1]⟩ by decide))
          (show push true ⟨1, 1, Ptr.block [some 1]⟩ (Ref.outside 2) =
            Outcome.done ⟨2, 2, Ptr.block [some 1, some 2]⟩ by decide))
        (show push true ⟨2, 2, Ptr.block [some 1, some 2]⟩ (Ref.outside 3) =
          Outcome.done ⟨3, 4, Ptr.block [some 1, some 2, some 3, none]⟩ by decide))
      (show erase true ⟨3, 4, Ptr.block [some 1, some 2, some 3, none]⟩ 0 =
        Outcome.done ⟨2, 4, Ptr.block [some 2, some 3, some 3, none]⟩ by decide)
  ⟨hr, reachable_size_le_capacity _ hr⟩

/-! ## Relations between the manipulators -/

/-- For a trivially copyable element type and a value outside the array, `insert` at an
index up to the size followed by `erase` at that index restores the size and the elements
of a vector with `curr_size ≤ capacity` whose array has `capacity` slots. -/
theorem insert_erase_restores {T : Type} [Element T] (htc : trivially_copyable T = true)
    (s : DynamicVector T) (x : T) (i : Nat)
    (hsz : s.curr_size ≤ s.capacity) (hbuf : Allocated s) (hi : i ≤ s.curr_size) :
    ∃ s1 s2, DynamicVector.insert true s (Ref.outside x) i = Outcome.done s1 ∧
      erase true s1 i = Outcome.done s2 ∧
      s2.curr_size = s.curr_size ∧ elements s2 = elements s := by
  have hlen := elements_length s hsz hbuf
  obtain ⟨s1, hrun1, hsize1, hcap1, hbuf1, helems1⟩ := insert_spec htc s x i hsz hbuf hi
  have hg := lt_grown s.capacity
  have hsz1 : s1.curr_size ≤ s1.capacity := by
    rw [hsize1, hcap1]
    split <;> omega
  obtain ⟨s2, hrun2, hsize2, _, _, helems2⟩ := erase_spec htc s1 i hsz1 hbuf1 (by omega)
  refine ⟨s1, s2, hrun1, hrun2, by omega, ?_⟩
  rw [helems2]
  apply List.ext_getElem?
  intro j
  rw [getElem?_taken_out _ i j (by rw [elements_length s1 hsz1 hbuf1]; omega), helems1,
    getElem?_put_in _ _ i j (by omega), getElem?_put_in _ _ i (j + 1) (by omega)]
  split_ifs <;> first | rfl | omega

/-- C9, evaluated where it fails. On the full vector `["a"]` of `string`, reached by one
`push`, `insert("x", 1)` moves the string with `memcpy` into the new array: undefined, and
there is no vector for the `erase` that should restore the sequence. -/
theorem insert_then_erase_fails_on_strings :
    push true (empty : DynamicVector String) (Ref.outside "a") =
      Outcome.done ⟨1, 1, Ptr.block [some "a"]⟩ ∧
    DynamicVector.insert true (⟨1, 1, Ptr.block [some "a"]⟩ : DynamicVector String)
      (Ref.outside "x") 1 = Outcome.undefined :=
  ⟨by decide, by decide⟩

/-- With an argument outside the array, on every state of every element type and with or
without storage to obtain, `insert` at the index `curr_size` ends exactly as `push` does. -/
theorem insert_at_size_outside {T : Type} [Element T] (heap : Bool) (s : DynamicVector T)
    (v : T) :
    DynamicVector.insert heap s (Ref.outside v) s.curr_size = push heap s (Ref.outside v) := by
  obtain ⟨sz, cap, arr⟩ := s
  simp only [DynamicVector.insert, push, le_refl, if_true, Nat.add_sub_cancel, Nat.sub_self,
    insert_loop, Ref.read, Ref.read_deleted, Option.some_bind]
  by_cases hfull : sz ≥ cap
  · simp only [if_pos hfull]
    cases heap with
    | false => simp only [new_array, Bool.false_eq_true, if_false]
    | true =>
      simp only [new_array, if_true]
      by_cases h1 : sz ≥ 1
      · simp only [if_pos h1]
        cases htc : trivially_copyable T with
        | false =>
          have hn : sz ≠ 0 ∧ True := ⟨by omega, trivial⟩
          simp only [Ptr.memcpy, if_pos hn, Option.none_bind]
        | true =>
          simp only [memcpy_bytewise]
          cases arr with
          | nullptr => simp only [Ptr.copy_slots, Option.none_bind]
          | block a =>
            by_cases hc : 0 + sz ≤ (List.replicate (grown cap) (none : Option T)).length ∧
                0 + sz ≤ a.length
            · simp only [Ptr.copy_slots, if_pos hc, Option.some_bind]
              generalize List.take 0 (List.replicate (grown cap) (none : Option T)) ++
                List.take sz (List.drop 0 a) ++
                List.drop (0 + sz) (List.replicate (grown cap) none) = M
              by_cases hst : sz < M.length
              · have hc2 : sz + 1 ≤ (M.set sz (some v)).length ∧ sz ≤ a.length := by
                  rw [List.length_set]; omega
                simp only [Ptr.store, if_pos hst, Option.some_bind, if_pos hc2, List.take_zero,
                  List.append_nil, Nat.add_zero, List.take_append_drop]
              · simp only [Ptr.store, if_neg hst, Option.none_bind]
            · simp only [Ptr.copy_slots, if_neg hc, Option.none_bind]
      · have hz : sz = 0 := by omega
        subst hz
        simp only [if_neg h1]
  · simp only [if_neg hfull]

/-- C10, evaluated where it fails. On the full vector `[1]` of `int`, with its own element 0
as the argument, `push(v[0])` reads the argument after `delete [] arr` and is undefined,
while `insert(v[0], 1)` reads it before and returns `[1, 1]`. -/
theorem insert_at_size_differs_from_push :
    push true (⟨1, 1, Ptr.block [some 1]⟩ : DynamicVector Int) (Ref.element 0) =
      Outcome.undefined ∧
    DynamicVector.insert true (⟨1, 1, Ptr.block [some 1]⟩ : DynamicVector Int) (Ref.element 0) 1 =
      Outcome.done ⟨2, 2, Ptr.block [some 1, some 1]⟩ :=
  ⟨by decide, by decide⟩

/-! ## Growth and shrinking of the capacity -/

/-- C11, evaluated where it fails. On the full vector `["a", "b"]` of `string`, `push("c")`
and `insert("c", 1)` move the strings with `memcpy`: undefined, with no capacity to speak
of. On the full vector `[1, 2]` of `int`, `push(v[1])` reads its argument in the freed
array: undefined as well. -/
theorem growth_fails_on_strings_and_own_elements :
    push true (⟨2, 2, Ptr.block [some "a", some "b"]⟩ : DynamicVector String)
      (Ref.outside "c") = Outcome.undefined ∧
    DynamicVector.insert true (⟨2, 2, Ptr.block [some "a", some "b"]⟩ : DynamicVector String)
      (Ref.outside "c") 1 = Outcome.undefined ∧
    push true (⟨2, 2, Ptr.block [some 1, some 2]⟩ : DynamicVector Int) (Ref.element 1) =
      Outcome.undefined :=
  ⟨by decide, by decide, by decide⟩

/-- C12, evaluated where it fails. On the vector `["a", "b"]` of `string` with capacity 4,
`erase(1)` shrinks the array and moves the remaining string with `memcpy`: undefined. No
defined call yields a vector of two strings: `push("b")` on the full vector `["a"]` is
undefined already. The same `erase(1)` on the vector `[1, 2]` of `int` returns `[1]` with
capacity 2. -/
theorem shrink_fails_on_strings :
    erase true (⟨2, 4, Ptr.block [some "a", some "b", none, none]⟩ : DynamicVector String) 1 =
      Outcome.undefined ∧
    push true (⟨1, 1, Ptr.block [some "a"]⟩ : DynamicVector String) (Ref.outside "b") =
      Outcome.undefined ∧
    erase true (⟨2, 4, Ptr.block [some 1, some 2, none, none]⟩ : DynamicVector Int) 1 =
      Outcome.done ⟨1, 2, Ptr.block [some 1, none]⟩ :=
  ⟨by decide, by decide, by decide⟩

/-! ## Runs of `push` from the empty vector -/

/-- Below the next power of two, one more element needs no larger power of two. -/
theorem clog_succ_of_lt (n : Nat) (h : n < 2 ^ Nat.clog 2 n) :
    Nat.clog 2 (n + 1) = Nat.clog 2 n := by
  apply Nat.le_antisymm
  · exact (Nat.le_pow_iff_clog_le (by decide)).mp h
  · exact Nat.clog_mono_right 2 (Nat.le_succ n)

/-- At a power of two, one more element needs the next power of two. -/
theorem clog_succ_of_eq (n : Nat) (h : n = 2 ^ Nat.clog 2 n) :
    Nat.clog 2 (n + 1) = Nat.clog 2 n + 1 := by
  apply Nat.le_antisymm
  · apply (Nat.le_pow_iff_clog_le (by decide)).mp
    have hpos : 0 < 2 ^ Nat.clog 2 n := Nat.pos_pow_of_pos _ (by decide)
    rw [Nat.pow_succ]
    generalize 2 ^ Nat.clog 2 n = p at h hpos
    omega
  · apply (Nat.pow_lt_iff_lt_clog (by decide)).mp
    exact Nat.lt_succ_of_le (Nat.le_of_eq h.symm)

/-- A run of `push` that starts with `n ≥ 1` elements in an array of the least power of two
`≥ n` many slots returns with the least power of two `≥` the new size as capacity, and
as many of its calls change the capacity as the exponent rises. -/
theorem push_each_growth {T : Type} [Element T] (htc : trivially_copyable T = true)
    (vs : List T) :
    ∀ s : DynamicVector T, 1 ≤ s.curr_size → s.capacity = 2 ^ Nat.clog 2 s.curr_size →
      Allocated s →
      ∃ s', push_each true (vs.map Ref.outside) s = Outcome.done s' ∧
        s'.curr_size = s.curr_size + vs.length ∧
        s'.capacity = 2 ^ Nat.clog 2 (s.curr_size + vs.length) ∧
        reallocations true (vs.map Ref.outside) s + Nat.clog 2 s.curr_size =
          Nat.clog 2 (s.curr_size + vs.length) := by
  induction vs with
  | nil =>
    intro s _ hcap _
    exact ⟨s, rfl, rfl, hcap, by simp only [List.map_nil, reallocations, Nat.zero_add,
      List.length_nil, Nat.add_zero]⟩
  | cons v vs ih =>
    intro s h1 hcap hbuf
    have hle : s.curr_size ≤ 2 ^ Nat.clog 2 s.curr_size := Nat.le_pow_clog (by decide) _
    have hsz : s.curr_size ≤ s.capacity := by rw [hcap]; exact hle
    have hpos : 0 < 2 ^ Nat.clog 2 s.curr_size := Nat.pos_pow_of_pos _ (by decide)
    obtain ⟨s1, hrun1, hsize1, hcap1, hbuf1, _⟩ := push_spec htc s v hsz hbuf
    have hstep : s1.capacity = 2 ^ Nat.clog 2 (s.curr_size + 1) ∧
        (if s1.capacity = s.capacity then 0 else 1) + Nat.clog 2 s.curr_size =
          Nat.clog 2 (s.curr_size + 1) := by
      by_cases hlt : s.curr_size < s.capacity
      · have hc := clog_succ_of_lt s.curr_size (by rw [← hcap]; exact hlt)
        rw [hcap1, if_pos hlt, hc]
        exact ⟨hcap, by rw [if_pos rfl, Nat.zero_add]⟩
      · have heq : s.curr_size = 2 ^ Nat.clog 2 s.curr_size := by omega
        have hc := clog_succ_of_eq s.curr_size heq
        have hne : ¬ s.capacity = 0 := by omega
        have hg : grown s.capacity = s.capacity * 2 := by
          unfold grown
          rw [if_neg hne]
        rw [hcap1, if_neg hlt, hg, hc]
        refine ⟨by rw [hcap, Nat.pow_succ], ?_⟩
        have hch : ¬ s.capacity * 2 = s.capacity := by omega
        rw [if_neg hch]
        omega
    obtain ⟨s', hrun, hsize, hcap', hcount⟩ :=
      ih s1 (by omega) (by rw [hsize1]; exact hstep.1) hbuf1
    have hlen : s1.curr_size + vs.length = s.curr_size + (v :: vs).length := by
      rw [hsize1, List.length_cons]
      omega
    rw [hlen] at hsize hcap' hcount
    refine ⟨s', ?_, hsize, hcap', ?_⟩
    · simp only [List.map_cons, push_each, hrun1]
      exact hrun
    · simp only [List.map_cons, reallocations, hrun1]
      rw [hsize1] at hcount
      omega

/-- For a trivially copyable element type and `N ≥ 1` values outside the array, the run of
`push` on the default-constructed vector (storage being obtained) returns with size `N`
and with the least power of two that is `≥ N` as capacity, which is `2 ^ ⌈log2 N⌉`; the
number of its calls that change the capacity is `⌈log2 N⌉ + 1`. -/
theorem push_run_bytewise {T : Type} [Element T] (htc : trivially_copyable T = true)
    (vs : List T) (hN : 1 ≤ vs.length) :
    ∃ s', push_each true (vs.map Ref.outside) empty = Outcome.done s' ∧
      s'.curr_size = vs.length ∧
      s'.capacity = 2 ^ Nat.clog 2 vs.length ∧
      (vs.length ≤ s'.capacity ∧ ∀ e, vs.length ≤ 2 ^ e → s'.capacity ≤ 2 ^ e) ∧
      reallocations true (vs.map Ref.outside) empty = Nat.clog 2 vs.length + 1 := by
  cases vs with
  | nil => simp only [List.length_nil] at hN; omega
  | cons v vs =>
    have hrun1 : push true (empty : DynamicVector T) (Ref.outside v) =
        Outcome.done ⟨1, 1, Ptr.block [some v]⟩ := rfl
    obtain ⟨s', hrun, hsize, hcap, hcount⟩ :=
      push_each_growth htc vs (⟨1, 1, Ptr.block [some v]⟩ : DynamicVector T) (Nat.le_refl 1)
        (by simp only [Nat.clog_one_right, Nat.pow_zero]) rfl
    have hlen : 1 + vs.length = (v :: vs).length := by
      rw [List.length_cons]
      omega
    dsimp only at hsize hcap hcount
    rw [Nat.clog_one_right, Nat.add_zero] at hcount
    rw [hlen] at hsize hcap hcount
    refine ⟨s', ?_, hsize, hcap, ⟨?_, ?_⟩, ?_⟩
    · simp only [List.map_cons, push_each, hrun1]
      exact hrun
    · rw [hcap]
      exact Nat.le_pow_clog (by decide) _
    · intro e he
      rw [hcap]
      exact Nat.pow_le_pow_right (by decide) ((Nat.le_pow_iff_clog_le (by decide)).mp he)
    · simp only [List.map_cons, reallocations, hrun1]
      have hne : ¬ (1 : Nat) = (empty : DynamicVector T).capacity := by
        simp only [empty]
        decide
      rw [if_neg hne, hcount]
      omega

/-- C13, evaluated where it fails. The run of `push` for `"a"`, `"b"`, `"c"` on the
default-constructed vector of `string` is undefined: the first call returns `["a"]` with
capacity 1, the second has to move that string with `memcpy`. The same run on `int` values
returns with size 3 and capacity 4. -/
theorem push_run_fails_on_strings :
    push_each true [Ref.outside "a", Ref.outside "b", Ref.outside "c"]
      (empty : DynamicVector String) = Outcome.undefined ∧
    push_each true [Ref.outside "a"] (empty : DynamicVector String) =
      Outcome.done ⟨1, 1, Ptr.block [some "a"]⟩ ∧
    push_each true [Ref.outside 1, Ref.outside 2, Ref.outside 3] (empty : DynamicVector Int) =
      Outcome.done ⟨3, 4, Ptr.block [some 1, some 2, some 3, none]⟩ :=
  ⟨by decide, by decide, by decide⟩

/-! ## What a returning call does to size and capacity -/

/-- Size and capacity after a returning `push`. -/
theorem push_done {T : Type} [Element T] (heap : Bool) (s s' : DynamicVector T) (v : Ref T)
    (h : push heap s v = Outcome.done s') :
    s'.curr_size = s.curr_size + 1 ∧
    s'.capacity = (if s.curr_size < s.capacity then s.capacity else grown s.capacity) := by
  unfold push at h
  split at h
  · have hlt : ¬ s.curr_size < s.capacity := by omega
    dsimp only at h
    split at h
    · cases h
    · split at h
      · cases h
      · split at h
        · cases h
        · injection h with h
          subst h
          exact ⟨rfl, (if_neg hlt).symm⟩
  · have hlt : s.curr_size < s.capacity := by omega
    split at h
    · cases h
    · injection h with h
      subst h
      exact ⟨rfl, (if_pos hlt).symm⟩

/-- Size and capacity after a returning `insert`: those of a returning `push` for an index
up to the size, and the old ones, with the old array, for an index above it. -/
theorem insert_done {T : Type} [Element T] (heap : Bool) (s s' : DynamicVector T)
    (v : Ref T) (k : Nat)
    (h : DynamicVector.insert heap s v k = Outcome.done s') :
    (s'.curr_size = s.curr_size + 1 ∧
      s'.capacity = (if s.curr_size < s.capacity then s.capacity else grown s.capacity)) ∨
    s' = s := by
  unfold DynamicVector.insert at h
  split at h
  · left
    split at h
    · have hlt : ¬ s.curr_size < s.capacity := by omega
      dsimp only at h
      split at h
      · cases h
      · split at h
        · cases h
        · injection h with h
          subst h
          exact ⟨rfl, (if_neg hlt).symm⟩
    · have hlt : s.curr_size < s.capacity := by omega
      dsimp only at h
      split at h
      · cases h
      · split at h
        · cases h
        · injection h with h
          subst h
          exact ⟨rfl, (if_pos hlt).symm⟩
  · split at h
    · left
      exact push_done heap s s' v h
    · right
      injection h with h
      exact h.symm

/-- Size and capacity after a returning `erase`: one element less under the shrink rule
for an index below the size, and the old ones, with the old array, for any other index. -/
theorem erase_done {T : Type} [Element T] (heap : Bool) (s s' : DynamicVector T) (k : Nat)
    (h : erase heap s k = Outcome.done s') :
    (1 ≤ s.curr_size ∧ s'.curr_size = s.curr_size - 1 ∧
      s'.capacity =
        (if s.curr_size - 1 < s.capacity / 2 then s.capacity / 2 else s.capacity)) ∨
    s' = s := by
  unfold erase at h
  split at h
  · left
    have h1 : 1 ≤ s.curr_size := by omega
    split at h
    · cases h
    · dsimp only at h
      split at h
      · rename_i hshrink
        split at h
        · cases h
        · split at h
          · cases h
          · injection h with h
            subst h
            exact ⟨h1, rfl, (if_pos hshrink).symm⟩
      · rename_i hshrink
        injection h with h
        subst h
        exact ⟨h1, rfl, (if_neg hshrink).symm⟩
  · right
    injection h with h
    exact h.symm

/-- Size and capacity after a returning `operator=`: those of the source, or on
self-assignment the vector as it was. -/
theorem assign_done {T : Type} [Element T] (heap self : Bool) (s t s' : DynamicVector T)
    (h : operator_assign heap self s t = Outcome.done s') :
    (s'.curr_size = t.curr_size ∧ s'.capacity = t.capacity) ∨ s' = s := by
  unfold operator_assign at h
  split at h
  · left
    dsimp only at h
    split at h
    · cases h
    · split at h
      · cases h
      · injection h with h
        subst h
        exact ⟨rfl, rfl⟩
  · right
    injection h with h
    exact h.symm

/-! ## Capacity against size in reachable states -/

/-- Growth keeps the size between half the capacity and the capacity, and keeps the
capacity zero or a power of two. -/
theorem grow_keeps (sz cap : Nat) (h1 : sz ≤ cap) (h2 : cap / 2 ≤ sz)
    (h3 : cap = 0 ∨ ∃ e, cap = 2 ^ e) :
    sz + 1 ≤ (if sz < cap then cap else grown cap) ∧
    (if sz < cap then cap else grown cap) / 2 ≤ sz + 1 ∧
    ((if sz < cap then cap else grown cap) = 0 ∨
      ∃ e, (if sz < cap then cap else grown cap) = 2 ^ e) := by
  by_cases hlt : sz < cap
  · rw [if_pos hlt]
    exact ⟨by omega, by omega, h3⟩
  · rw [if_neg hlt]
    unfold grown
    by_cases h0 : cap = 0
    · rw [if_pos h0]
      exact ⟨by omega, by omega, Or.inr ⟨0, rfl⟩⟩
    · rw [if_neg h0]
      refine ⟨by omega, by omega, Or.inr ?_⟩
      rcases h3 with h3 | ⟨e, he⟩
      · exact absurd h3 h0
      · exact ⟨e + 1, by rw [he, Nat.pow_succ]⟩

/-- Shrinking keeps the size between half the capacity and the capacity, and keeps the
capacity zero or a power of two. -/
theorem shrink_keeps (sz cap : Nat) (h0 : 1 ≤ sz) (h1 : sz ≤ cap) (h2 : cap / 2 ≤ sz)
    (h3 : cap = 0 ∨ ∃ e, cap = 2 ^ e) :
    sz - 1 ≤ (if sz - 1 < cap / 2 then cap / 2 else cap) ∧
    (if sz - 1 < cap / 2 then cap / 2 else cap) / 2 ≤ sz - 1 ∧
    ((if sz - 1 < cap / 2 then cap / 2 else cap) = 0 ∨
      ∃ e, (if sz - 1 < cap / 2 then cap / 2 else cap) = 2 ^ e) := by
  by_cases hlt : sz - 1 < cap / 2
  · rw [if_pos hlt]
    refine ⟨by omega, by omega, Or.inr ?_⟩
    rcases h3 with h3 | ⟨e, he⟩
    · omega
    · cases e with
      | zero =>
        rw [Nat.pow_zero] at he
        omega
      | succ e =>
        refine ⟨e, ?_⟩
        rw [he, Nat.pow_succ, Nat.mul_div_cancel _ (by decide)]
  · rw [if_neg hlt]
    exact ⟨by omega, by omega, h3⟩

/-- In every reachable state the size lies between half the capacity (rounded down) and
the capacity, and the capacity is zero or a power of two. -/
theorem reachable_invariant {T : Type} [Element T] (s : DynamicVector T) (h : Reachable s) :
    s.curr_size ≤ s.capacity ∧ s.capacity / 2 ≤ s.curr_size ∧
    (s.capacity = 0 ∨ ∃ e, s.capacity = 2 ^ e) := by
  induction h with
  | init => exact ⟨Nat.le_refl 0, Nat.le_of_eq (Nat.zero_div 2), Or.inl rfl⟩
  | push heap v _ hrun ih =>
    obtain ⟨hsize, hcap⟩ := push_done heap _ _ v hrun
    rw [hsize, hcap]
    exact grow_keeps _ _ ih.1 ih.2.1 ih.2.2
  | insert heap v k _ hrun ih =>
    rcases insert_done heap _ _ v k hrun with ⟨hsize, hcap⟩ | hsame
    · rw [hsize, hcap]
      exact grow_keeps _ _ ih.1 ih.2.1 ih.2.2
    · rw [hsame]
      exact ih
  | erase heap k _ hrun ih =>
    rcases erase_done heap _ _ k hrun with ⟨h1, hsize, hcap⟩ | hsame
    · rw [hsize, hcap]
      exact shrink_keeps _ _ h1 ih.1 ih.2.1 ih.2.2
    · rw [hsame]
      exact ih
  | assign heap self _ _ hrun ihs iht =>
    rcases assign_done heap self _ _ _ hrun with ⟨hsize, hcap⟩ | hsame
    · rw [hsize, hcap]
      exact iht
    · rw [hsame]
      exact ihs
  | nullify _ _ => exact ⟨Nat.le_refl 0, Nat.le_of_eq (Nat.zero_div 2), Or.inl rfl⟩

/-- A run of `push` for values outside the array, on a reachable vector of a trivially
copyable element type with `curr_size ≤ capacity` whose array has `capacity` slots,
returns such a vector again, one element larger per call. -/
theorem push_each_valid {T : Type} [Element T] (htc : trivially_copyable T = true)
    (vs : List T) :
    ∀ s : DynamicVector T, s.curr_size ≤ s.capacity → Allocated s → Reachable s →
      ∃ s', push_each true (vs.map Ref.outside) s = Outcome.done s' ∧
        s'.curr_size = s.curr_size + vs.length ∧ s'.curr_size ≤ s'.capacity ∧
        Allocated s' ∧ Reachable s' := by
  induction vs with
  | nil =>
    intro s hsz hbuf hr
    exact ⟨s, rfl, rfl, hsz, hbuf, hr⟩
  | cons v vs ih =>
    intro s hsz hbuf hr
    obtain ⟨s1, hrun1, hsize1, _, hbuf1, _⟩ := push_spec htc s v hsz hbuf
    have hr1 : Reachable s1 := Reachable.push true (Ref.outside v) hr hrun1
    obtain ⟨s', hrun, hsize, hsz', hbuf', hr'⟩ :=
      ih s1 (push_size_le true s s1 (Ref.outside v) hrun1 hsz) hbuf1 hr1
    refine ⟨s', ?_, ?_, hsz', hbuf', hr'⟩
    · simp only [List.map_cons, push_each, hrun1]
      exact hrun
    · rw [hsize, hsize1, List.length_cons]
      omega

/-- A run of `erase` at indices that are each below the size of their time, on a reachable
vector of a trivially copyable element type with `curr_size ≤ capacity` whose array has
`capacity` slots, returns such a vector again, one element smaller per call, and with some
capacity left if there was some. -/
theorem erase_each_valid {T : Type} [Element T] (htc : trivially_copyable T = true)
    (ks : List Nat) :
    ∀ s : DynamicVector T, s.curr_size ≤ s.capacity → Allocated s → Reachable s →
      valid_indices ks s.curr_size = true →
      ∃ s', erase_each true ks s = Outcome.done s' ∧
        s'.curr_size + ks.length = s.curr_size ∧ s'.curr_size ≤ s'.capacity ∧
        Allocated s' ∧ Reachable s' ∧ (1 ≤ s.capacity → 1 ≤ s'.capacity) := by
  induction ks with
  | nil =>
    intro s hsz hbuf hr _
    exact ⟨s, rfl, rfl, hsz, hbuf, hr, fun h => h⟩
  | cons k ks ih =>
    intro s hsz hbuf hr hks
    simp only [valid_indices, Bool.and_eq_true, decide_eq_true_eq] at hks
    obtain ⟨hk, hrest⟩ := hks
    obtain ⟨s1, hrun1, hsize1, hcap1, hbuf1, _⟩ := erase_spec htc s k hsz hbuf hk
    have hr1 : Reachable s1 := Reachable.erase true k hr hrun1
    rw [← hsize1] at hrest
    obtain ⟨s', hrun, hsize, hsz', hbuf', hr', hcap'⟩ :=
      ih s1 (erase_size_le true s s1 k hrun1 hsz) hbuf1 hr1 hrest
    refine ⟨s', ?_, ?_, hsz', hbuf', hr', fun _ => hcap' ?_⟩
    · simp only [erase_each, hrun1]
      exact hrun
    · rw [List.length_cons]
      omega
    · rw [hcap1]
      split <;> omega

/-- For a trivially copyable element type `erase` never gives up the array altogether. On
every vector with `1 ≤ curr_size ≤ capacity` whose array has `capacity` slots and for
every index below the size, `erase` (storage being obtained) returns with a capacity of at
least 1; and for every `N ≥ 1`, `N` calls of `push` for values outside the array onto the
default-constructed vector followed by `N` calls of `erase` at valid indices end with
size 0 and capacity exactly 1, which is not the state that `nullify` produces. -/
theorem erase_keeps_storage_bytewise {T : Type} [Element T]
    (htc : trivially_copyable T = true) :
    (∀ (s : DynamicVector T) (k : Nat), 1 ≤ s.curr_size → s.curr_size ≤ s.capacity →
      Allocated s → k < s.curr_size →
      ∃ s', erase true s k = Outcome.done s' ∧ 1 ≤ s'.capacity) ∧
    (∀ (vs : List T) (ks : List Nat), 1 ≤ vs.length → ks.length = vs.length →
      valid_indices ks vs.length = true →
      ∃ s1 s2, push_each true (vs.map Ref.outside) empty = Outcome.done s1 ∧
        erase_each true ks s1 = Outcome.done s2 ∧
        s2.curr_size = 0 ∧ s2.capacity = 1 ∧ s2 ≠ nullify s2) := by
  constructor
  · intro s k h1 hsz hbuf hk
    obtain ⟨s', hrun, _, hcap, _, _⟩ := erase_spec htc s k hsz hbuf hk
    refine ⟨s', hrun, ?_⟩
    rw [hcap]
    split <;> omega
  · intro vs ks hN hlen hks
    obtain ⟨s1, hrun1, hsize1, hsz1, hbuf1, hr1⟩ :=
      push_each_valid htc vs (empty : DynamicVector T) (Nat.le_refl 0) rfl Reachable.init
    have hsizeN : s1.curr_size = vs.length := by
      rw [hsize1]
      exact Nat.zero_add _
    rw [← hsizeN] at hks
    obtain ⟨s2, hrun2, hsize2, _, _, hr2, hcap2⟩ :=
      erase_each_valid htc ks s1 hsz1 hbuf1 hr1 hks
    have hsize : s2.curr_size = 0 := by omega
    obtain ⟨_, hhalf, _⟩ := reachable_invariant s2 hr2
    have hpos : 1 ≤ s2.capacity := hcap2 (by omega)
    have hcap : s2.capacity = 1 := by omega
    refine ⟨s1, s2, hrun1, hrun2, hsize, hcap, fun h => ?_⟩
    have h0 : s2.capacity = (nullify s2).capacity := by rw [← h]
    simp only [nullify] at h0
    omega

/-- C19, evaluated where it fails. On the vector `["a", "b", "c"]` of `string` with
capacity 8, `erase(2)` shrinks the array and moves the two remaining strings with
`memcpy`: undefined, with no capacity to speak of. The run of two calls of `push` on the
default-constructed vector of `string` is undefined before any `erase` is called, while on
`int` the run of two calls of `push` and two of `erase` ends with size 0 and capacity 1. -/
theorem erase_run_fails_on_strings :
    erase true (⟨3, 8, Ptr.block [some "a", some "b", some "c", none, none, none, none, none]⟩ :
      DynamicVector String) 2 = Outcome.undefined ∧
    push_each true [Ref.outside "x", Ref.outside "y"] (empty : DynamicVector String) =
      Outcome.undefined ∧
    (push_each true [Ref.outside 1, Ref.outside 2] (empty : DynamicVector Int) =
        Outcome.done ⟨2, 2, Ptr.block [some 1, some 2]⟩ ∧
      erase_each true [1, 0] (⟨2, 2, Ptr.block [some 1, some 2]⟩ : DynamicVector Int) =
        Outcome.done ⟨0, 1, Ptr.block [none]⟩) :=
  ⟨by decide, by decide, by decide, by decide⟩

/-- C20: in every state reached from the default-constructed vector by returning calls of
`push`, `insert`, `erase`, `operator=` from a reached vector, and `nullify`, the capacity
is 0 or a power of two. -/
theorem capacity_power_of_two {T : Type} [Element T] (s : DynamicVector T)
    (h : Reachable s) : s.capacity = 0 ∨ ∃ e, s.capacity = 2 ^ e :=
  (reachable_invariant s h).2.2

/-- Witness of C20: the state after `push(1)`, `push(2)`, `push(3)`, with capacity 4. -/
theorem capacity_power_of_two_witness :
    Reachable (⟨3, 4, Ptr.block [some 1, some 2, some 3, none]⟩ : DynamicVector Int) ∧
    ((⟨3, 4, Ptr.block [some 1, some 2, some 3, none]⟩ : DynamicVector Int).capacity = 0 ∨
      ∃ e, (⟨3, 4, Ptr.block [some 1, some 2, some 3, none]⟩ : DynamicVector Int).capacity
        = 2 ^ e) :=
  have hr : Reachable (⟨3, 4, Ptr.block [some 1, some 2, some 3, none]⟩ : DynamicVector Int) :=
    Reachable.push true (Ref.outside 3)
      (Reachable.push true (Ref.outside 2)
        (Reachable.push true (Ref.outside 1) Reachable.init
          (show push true empty (Ref.outside 1) =
            Outcome.done ⟨1, 1, Ptr.block [some 1]⟩ by decide))
        (show push true ⟨1, 1, Ptr.block [some 1]⟩ (Ref.outside 2) =
          Outcome.done ⟨2, 2, Ptr.block [some 1, some 2]⟩ by decide))
      (show push true ⟨2, 2, Ptr.block [some 1, some 2]⟩ (Ref.outside 3) =
        Outcome.done ⟨3, 4, Ptr.block [some 1, some 2, some 3, none]⟩ by decide)
  ⟨hr, capacity_power_of_two _ hr⟩

/-! ## Copying and clearing -/

/-- The effect of `operator=` between two distinct vectors of a trivially copyable element
type when storage is obtained: the call returns, whatever the destination held, with the
size and the capacity of the source, an array of `capacity` slots, and slots `[0, size)`
that hold what the source holds there. -/
theorem assign_spec {T : Type} [Element T] (htc : trivially_copyable T = true)
    (dst src : DynamicVector T)
    (hsz : src.curr_size ≤ src.capacity) (hbuf : Allocated src) :
    ∃ c, operator_assign true false dst src = Outcome.done c ∧
      c.curr_size = src.curr_size ∧ c.capacity = src.capacity ∧ Allocated c ∧
      elements c = elements src := by
  obtain ⟨sz, cap, arr⟩ := src
  simp only [Allocated] at hbuf
  simp only at hsz
  by_cases h1 : sz ≥ 1
  · cases arr with
    | nullptr => simp only [Ptr.slots] at hbuf; omega
    | block a =>
      simp only [Ptr.slots] at hbuf
      have hc : 0 + sz ≤ (List.replicate cap (none : Option T)).length ∧ 0 + sz ≤ a.length := by
        rw [List.length_replicate]; omega
      have hN := fun j => getElem?_copied (List.replicate cap (none : Option T)) a 0 0 sz j
        hc.1 hc.2
      refine ⟨⟨sz, cap, Ptr.block
        (List.take 0 (List.replicate cap none) ++ List.take sz (List.drop 0 a) ++
          List.drop (0 + sz) (List.replicate cap none))⟩, ?_, rfl, rfl, ?_, ?_⟩
      · simp only [operator_assign, Bool.not_false, if_true, new_array, if_pos h1, htc,
          memcpy_bytewise, Ptr.copy_slots, if_pos hc]
      · simp only [Allocated, Ptr.slots, List.length_append, List.length_take,
          List.length_drop, List.length_replicate]
        omega
      · simp only [elements]
        apply List.ext_getElem?
        intro j
        simp only [List.getElem?_take, hN]
        split_ifs <;> first | rfl | omega | (congr 1; omega)
  · have hz : sz = 0 := by omega
    subst hz
    refine ⟨⟨0, cap, Ptr.block (List.replicate cap none)⟩, ?_, rfl, rfl, ?_, ?_⟩
    · simp only [operator_assign, Bool.not_false, if_true, new_array, if_neg h1]
    · simp only [Allocated, Ptr.slots, List.length_replicate]
    · cases arr <;> simp only [elements, List.take_zero]

/-- C15, evaluated where it fails. From the vector `["a"]` of `string`, reached by one
`push`, the assignment to a distinct vector and the copy construction copy the string
object with `memcpy`: undefined; the bytes of a `string` hold the address of its
characters, and the copy would share them with the source. -/
theorem copy_fails_on_strings :
    push true (empty : DynamicVector String) (Ref.outside "a") =
      Outcome.done ⟨1, 1, Ptr.block [some "a"]⟩ ∧
    operator_assign true false (empty : DynamicVector String) ⟨1, 1, Ptr.block [some "a"]⟩ =
      Outcome.undefined ∧
    copy_construct true (⟨1, 1, Ptr.block [some "a"]⟩ : DynamicVector String) =
      Outcome.undefined :=
  ⟨by decide, by decide, by decide⟩

/-- C17, evaluated where it fails: when `new` yields no storage, `push` and `insert` on the
full vector `[1]` throw with the capacity already doubled to 2 over an array of one slot
(a later `push` then writes past the array), and `erase(0)` on the vector `[1, 2]` of
capacity 4 throws with the elements already shifted and the size already 1. -/
theorem allocation_failure_leaves_changes :
    push false (⟨1, 1, Ptr.block [some 1]⟩ : DynamicVector Int) (Ref.outside 2) =
      Outcome.thrown Thrown.alloc_failure ⟨1, 2, Ptr.block [some 1]⟩ ∧
    DynamicVector.insert false (⟨1, 1, Ptr.block [some 1]⟩ : DynamicVector Int)
        (Ref.outside 2) 0 =
      Outcome.thrown Thrown.alloc_failure ⟨1, 2, Ptr.block [some 1]⟩ ∧
    push true (⟨1, 2, Ptr.block [some 1]⟩ : DynamicVector Int) (Ref.outside 3) =
      Outcome.undefined ∧
    erase false (⟨2, 4, Ptr.block [some 1, some 2, none, none]⟩ : DynamicVector Int) 0 =
      Outcome.thrown Thrown.alloc_failure ⟨1, 4, Ptr.block [some 2, some 2, none, none]⟩ :=
  ⟨by decide, by decide, by decide, by decide⟩

/-- C18, evaluated where it fails: the copy construction from the default-constructed
vector, and the assignment of it to the vector `[1]`, return a vector with capacity 0
whose `arr` is the non-null result of `new T[0]`; that state is reachable. -/
theorem zero_capacity_with_storage :
    copy_construct true (empty : DynamicVector Int) = Outcome.done ⟨0, 0, Ptr.block []⟩ ∧
    operator_assign true false (⟨1, 1, Ptr.block [some 1]⟩ : DynamicVector Int) empty =
      Outcome.done ⟨0, 0, Ptr.block []⟩ ∧
    Reachable (⟨0, 0, Ptr.block []⟩ : DynamicVector Int) ∧
    (⟨0, 0, Ptr.block []⟩ : DynamicVector Int).capacity = 0 ∧
    (⟨0, 0, Ptr.block []⟩ : DynamicVector Int).arr ≠ Ptr.nullptr :=
  ⟨by decide, by decide,
    Reachable.assign true false Reachable.init Reachable.init
      (show operator_assign true false (empty : DynamicVector Int) empty =
        Outcome.done ⟨0, 0, Ptr.block []⟩ by decide),
    rfl, by decide⟩
